import Mathlib

/-!
Shallow embedding of `src/pipeline.py` (aws_api_pipeline): a small ETL job
that extracts crypto market data from a REST API, deduplicates and cleans
the records, and upserts them into a PostgreSQL table `crypto_market`.

Python dictionaries coming from JSON are modelled with one `Option (Option α)`
per field: `none` means the key is absent, `some none` means the key is present
with JSON `null`, `some (some v)` means the key is present with value `v`.
Numeric payloads (`current_price`, `market_cap`) are modelled as `Int`; the
pipeline never computes with them, it only carries them through.
`datetime.utcnow()` is modelled by an ambient `now : Nat` parameter, and the
effectful database session of `load_to_postgres` by an explicit step machine
with a failure oracle.
-/

namespace AwsApiPipeline

/-- A JSON-object field: `none` = key absent, `some none` = key present with
JSON null, `some (some v)` = key present with value `v`. -/
abbrev JsonField (α : Type) := Option (Option α)

/-- Python `d.get(k)`: returns `None` both when the key is absent and when the
stored value is null. -/
def jsonGet (f : JsonField α) : Option α := f.join

/-- Python `"k" in d`: true whenever the key is present, even with a null value. -/
def hasKey (f : JsonField α) : Bool := f.isSome

/-- One element of the JSON array returned by the CoinGecko markets endpoint,
restricted to the five keys `pipeline.py` reads. -/
structure RawCoin where
  id : JsonField String
  symbol : JsonField String
  name : JsonField String
  current_price : JsonField Int
  market_cap : JsonField Int
  deriving DecidableEq, Repr

/-- The five-field dict built by the extractor (lines 72-78); each field comes
from `coin.get(...)`, so it is `none` when absent or null in the source. -/
structure CoinRecord where
  coin_id : Option String
  symbol : Option String
  name : Option String
  current_price : Option Int
  market_cap : Option Int
  deriving DecidableEq, Repr

/-- The HTTP response of `requests.get` as far as the pipeline inspects it:
status code, body text, and the parsed JSON array. -/
structure HttpResponse where
  status_code : Nat
  text : String
  json : List RawCoin
  deriving DecidableEq, Repr

/-- The data carried by the exception raised at line 59:
`f"API call failed {response.status_code} = {response.text}"`. -/
structure ApiError where
  status : Nat
  body : String
  deriving DecidableEq, Repr

/-- The filter at line 68: skip a coin when any of the keys `id`,
`current_price`, `market_cap` is absent (`"id" not in coin or ...`). -/
def keepCoin (c : RawCoin) : Bool :=
  hasKey c.id && hasKey c.current_price && hasKey c.market_cap

/-- The projection at lines 72-78: build the five-field record with
`coin.get(...)` for each field. -/
def projectCoin (c : RawCoin) : CoinRecord :=
  { coin_id := jsonGet c.id
    symbol := jsonGet c.symbol
    name := jsonGet c.name
    current_price := jsonGet c.current_price
    market_cap := jsonGet c.market_cap }

/-- The cleaning loop of `extract_crypto_data` (lines 65-78): iterate over the
parsed array, `continue` past entries missing a required key, append the
projection of each kept entry. -/
def cleanCoins : List RawCoin → List CoinRecord
  | [] => []
  | c :: rest => if keepCoin c then projectCoin c :: cleanCoins rest else cleanCoins rest

/-- `extract_crypto_data` (lines 35-82) applied to the response of the market
endpoint: raise if the status is not 200 (the error message carries the status
code and the body text), else return the cleaned list. -/
def extract_crypto_data (response : HttpResponse) : Except ApiError (List CoinRecord) :=
  if response.status_code ≠ 200 then
    Except.error { status := response.status_code, body := response.text }
  else
    Except.ok (cleanCoins response.json)

/-- A record after `transform_crypto_data`: the five extractor fields plus the
`load_timestamp` added at line 110. -/
structure CleanRecord where
  coin_id : Option String
  symbol : Option String
  name : Option String
  current_price : Option Int
  market_cap : Option Int
  load_timestamp : Nat
  deriving DecidableEq, Repr

/-- Python whitespace as recognized by `str.strip()`: space, tab, newline,
carriage return, vertical tab, form feed. -/
def pySpace (c : Char) : Bool :=
  c == ' ' || c == '\t' || c == '\n' || c == '\r' || c == '\x0b' || c == '\x0c'

/-- Python `str.strip()`: drop leading and trailing whitespace. -/
def pyStrip (s : String) : String :=
  String.mk (((s.data.dropWhile pySpace).reverse.dropWhile pySpace).reverse)

/-- Python `str.lower()` on the ASCII range the ticker symbols use. -/
def pyLower (s : String) : String :=
  String.mk (s.data.map Char.toLower)

/-- The per-item cleaning of `transform_crypto_data` (lines 105-110):
`item["symbol"] = item["symbol"].strip().lower() if item.get("symbol") else None`
(Python truthiness: `None` and the empty string are falsy), the same with only
`strip` for `name`, and `item["load_timestamp"] = datetime.utcnow()` modelled
by the ambient `now`. -/
def cleanItem (now : Nat) (item : CoinRecord) : CleanRecord :=
  { coin_id := item.coin_id
    symbol :=
      match item.symbol with
      | some s => if s = "" then none else some (pyLower (pyStrip s))
      | none => none
    name :=
      match item.name with
      | some s => if s = "" then none else some (pyStrip s)
      | none => none
    current_price := item.current_price
    market_cap := item.market_cap
    load_timestamp := now }

/-- The dedup loop of `transform_crypto_data` (lines 96-112) with the Python
`seen` set made explicit: skip an item whose `coin_id` was already seen, else
record the id and append the cleaned item. -/
def transformGo (now : Nat) (seen : List (Option String)) :
    List CoinRecord → List CleanRecord
  | [] => []
  | item :: rest =>
    if item.coin_id ∈ seen then
      transformGo now seen rest
    else
      cleanItem now item :: transformGo now (item.coin_id :: seen) rest

/-- `transform_crypto_data` (lines 87-115): the dedup loop started with the
empty `seen` set. -/
def transform_crypto_data (now : Nat) (data : List CoinRecord) : List CleanRecord :=
  transformGo now [] data

/-- The `crypto_market` table: a list of rows, keyed by `coin_id`. -/
abbrev Table := List CleanRecord

/-- The effect of the upsert statement (lines 159-166) for one VALUES row:
`INSERT ... ON CONFLICT (coin_id) DO UPDATE SET current_price = EXCLUDED.current_price,
market_cap = EXCLUDED.market_cap, load_timestamp = EXCLUDED.load_timestamp` —
if a row with this `coin_id` exists, refresh only those three columns of it,
otherwise insert the full row. -/
def upsertRow (t : Table) (r : CleanRecord) : Table :=
  if t.any (fun row => row.coin_id == r.coin_id) then
    t.map (fun row =>
      if row.coin_id = r.coin_id then
        { row with
          current_price := r.current_price
          market_cap := r.market_cap
          load_timestamp := r.load_timestamp }
      else row)
  else t ++ [r]

/-- The table effect of `load_to_postgres` (lines 120-172) on a batch whose
rows are all applied: the bulk upsert folds `upsertRow` over the batch in
order. -/
def load_to_postgres (t : Table) (batch : List CleanRecord) : Table :=
  batch.foldl upsertRow t

/-- The database calls issued inside `load_to_postgres`, in program order:
`psycopg2.connect` (line 130), `cur.execute(CREATE TABLE ...)` (line 134),
`execute_values(cur, insert_query, values)` (line 168), `conn.commit()`
(line 169). -/
inductive DbStep
  | connect
  | createTable
  | insertValues
  | commit
  deriving DecidableEq, Repr

/-- Outcome of one run of `load_to_postgres`: which database call raised (if
any), whether the psycopg2 connection is still open when control leaves the
function, and the resulting table state. -/
structure LoadOutcome where
  error : Option DbStep
  connOpenAtExit : Bool
  table : Table
  deriving DecidableEq, Repr

/-- Execution of `load_to_postgres` (lines 120-172) against a failure oracle
`fail` saying which database call raises. The function body is straight-line
code with no `try`/`finally` and no context manager: `conn.close()` (line 170)
is reached only after `conn.commit()` succeeds, so an exception from any call
after a successful `connect` leaves the connection open; nothing is committed
in that case, so the table is unchanged. -/
def load_to_postgres_run (fail : DbStep → Bool) (t : Table) (batch : List CleanRecord) :
    LoadOutcome :=
  if fail DbStep.connect then
    { error := some DbStep.connect, connOpenAtExit := false, table := t }
  else if fail DbStep.createTable then
    { error := some DbStep.createTable, connOpenAtExit := true, table := t }
  else if fail DbStep.insertValues then
    { error := some DbStep.insertValues, connOpenAtExit := true, table := t }
  else if fail DbStep.commit then
    { error := some DbStep.commit, connOpenAtExit := true, table := t }
  else
    { error := none, connOpenAtExit := false, table := load_to_postgres t batch }

/-- The five environment values read at lines 23-27; `none` models an unset
variable (`os.getenv` returns `None`). -/
structure EnvConfig where
  DB_USER : Option String
  DB_PASSWORD : Option String
  DB_HOST : Option String
  DB_PORT : Option String
  DB_NAME : Option String
  deriving DecidableEq, Repr

/-- Python truthiness of an `os.getenv` result: `None` and the empty string
are falsy, every other string is truthy. -/
def pyTruthy : Option String → Bool
  | none => false
  | some s => s != ""

/-- The startup check at line 29: `all([DB_USER, DB_PASSWORD, DB_HOST,
DB_PORT, DB_NAME])` under Python truthiness. -/
def credsOk (e : EnvConfig) : Bool :=
  pyTruthy e.DB_USER && pyTruthy e.DB_PASSWORD && pyTruthy e.DB_HOST &&
    pyTruthy e.DB_PORT && pyTruthy e.DB_NAME

/-- The f-string at line 32 building the libpq URL from the five settings. -/
def connectionStringOf (e : EnvConfig) : String :=
  "postgresql://" ++ e.DB_USER.getD "" ++ ":" ++ e.DB_PASSWORD.getD "" ++ "@" ++
    e.DB_HOST.getD "" ++ ":" ++ e.DB_PORT.getD "" ++ "/" ++ e.DB_NAME.getD ""

/-- The errors that can abort a run of the module: the credentials exception
of line 30, the API exception of line 59, or a database exception inside
`load_to_postgres`. -/
inductive PipelineError
  | config : String → PipelineError
  | api : ApiError → PipelineError
  | db : DbStep → PipelineError
  deriving DecidableEq, Repr

/-- The external calls a run can attempt: the HTTP GET of line 55 and the
database connect of line 130. -/
inductive Effect
  | httpGet
  | dbConnect
  deriving DecidableEq, Repr

/-- `run_pipeline` (lines 178-186): extract, transform, load, each failure
propagating unmodified. Returns the outcome together with the trace of
external calls attempted. -/
def run_pipeline (resp : HttpResponse) (now : Nat) (fail : DbStep → Bool) (t : Table) :
    Except PipelineError Table × List Effect :=
  match extract_crypto_data resp with
  | Except.error a => (Except.error (PipelineError.api a), [Effect.httpGet])
  | Except.ok raw =>
    let transformed := transform_crypto_data now raw
    let outcome := load_to_postgres_run fail t transformed
    match outcome.error with
    | some s => (Except.error (PipelineError.db s), [Effect.httpGet, Effect.dbConnect])
    | none => (Except.ok outcome.table, [Effect.httpGet, Effect.dbConnect])

/-- Executing `pipeline.py` as a script: the module-level credentials check
(lines 29-30) runs at import time, before `run_pipeline` is called (line 192),
so a missing credential raises before any external call is attempted. -/
def runModule (e : EnvConfig) (resp : HttpResponse) (now : Nat) (fail : DbStep → Bool)
    (t : Table) : Except PipelineError Table × List Effect :=
  if credsOk e then run_pipeline resp now fail t
  else (Except.error (PipelineError.config "Database credentials are missing in .env"), [])

/-- Modelled from the spec: keeping the first occurrence of each `coin_id`, in
input order — the record-level statement of the deduplication policy, used to
compare `transform_crypto_data` against the spec's wording. -/
def firstOccurrences : List CoinRecord → List CoinRecord
  | [] => []
  | x :: xs => x :: firstOccurrences (xs.filter fun y => y.coin_id != x.coin_id)
termination_by l => l.length
decreasing_by
  simp only [List.length_cons]
  exact Nat.lt_succ_of_le (List.length_filter_le _ _)

/-- Modelled from the spec: an HTTP success status in the usual sense, the
2xx range — used to compare the claim "fails on non-success status" with the
code's literal `status_code != 200` test. -/
def specSuccessStatus (s : Nat) : Bool :=
  decide (200 ≤ s) && decide (s < 300)


lemma firstOccurrences_nil : firstOccurrences [] = [] := by
  rw [firstOccurrences]

lemma firstOccurrences_cons (x : CoinRecord) (xs : List CoinRecord) :
    firstOccurrences (x :: xs)
      = x :: firstOccurrences (xs.filter fun y => y.coin_id != x.coin_id) := by
  rw [firstOccurrences]

lemma mem_of_mem_firstOccurrences (l : List CoinRecord) :
    ∀ r ∈ firstOccurrences l, r ∈ l := by
  induction l using firstOccurrences.induct with
  | case1 => simp [firstOccurrences_nil]
  | case2 x xs ih =>
    intro r h
    rw [firstOccurrences_cons] at h
    rcases List.mem_cons.mp h with h | h
    · exact h ▸ List.mem_cons_self x xs
    · exact List.mem_cons_of_mem x (List.mem_filter.mp (ih r h)).1

lemma mem_keys_firstOccurrences (l : List CoinRecord) (c : Option String) :
    c ∈ (firstOccurrences l).map (fun r => r.coin_id)
      ↔ c ∈ l.map (fun r => r.coin_id) := by
  induction l using firstOccurrences.induct generalizing c with
  | case1 => simp [firstOccurrences_nil]
  | case2 x xs ih =>
    rw [firstOccurrences_cons]
    simp only [List.map_cons, List.mem_cons, ih]
    simp only [List.mem_map, List.mem_filter, bne_iff_ne]
    constructor
    · rintro (h | ⟨a, ⟨ha, hne⟩, rfl⟩)
      · exact Or.inl h
      · exact Or.inr ⟨a, ha, rfl⟩
    · rintro (h | ⟨a, ha, rfl⟩)
      · exact Or.inl h
      · by_cases hc : a.coin_id = x.coin_id
        · exact Or.inl hc
        · exact Or.inr ⟨a, ⟨ha, hc⟩, rfl⟩

lemma keys_firstOccurrences_nodup (l : List CoinRecord) :
    ((firstOccurrences l).map (fun r => r.coin_id)).Nodup := by
  induction l using firstOccurrences.induct with
  | case1 => simp [firstOccurrences_nil]
  | case2 x xs ih =>
    rw [firstOccurrences_cons]
    simp only [List.map_cons, List.nodup_cons]
    refine ⟨?_, ih⟩
    intro hmem
    have h := (mem_keys_firstOccurrences _ _).mp hmem
    simp only [List.mem_map, List.mem_filter, bne_iff_ne] at h
    rcases h with ⟨a, ⟨_, hne⟩, hc⟩
    exact hne hc

lemma transformGo_eq (now : Nat) (l : List CoinRecord) :
    ∀ seen : List (Option String),
      transformGo now seen l
        = (firstOccurrences (l.filter fun y => decide (y.coin_id ∉ seen))).map
            (cleanItem now) := by
  induction l with
  | nil => intro seen; simp [transformGo, firstOccurrences_nil]
  | cons x xs ih =>
    intro seen
    by_cases hx : x.coin_id ∈ seen
    · have hf : (List.filter (fun y => decide (y.coin_id ∉ seen)) (x :: xs))
          = List.filter (fun y => decide (y.coin_id ∉ seen)) xs := by
        simp [List.filter_cons, hx]
      have hgo : transformGo now seen (x :: xs) = transformGo now seen xs := by
        simp [transformGo, hx]
      rw [hgo, hf]
      exact ih seen
    · have hf : (List.filter (fun y => decide (y.coin_id ∉ seen)) (x :: xs))
          = x :: List.filter (fun y => decide (y.coin_id ∉ seen)) xs := by
        simp [List.filter_cons, hx]
      have hgo : transformGo now seen (x :: xs)
          = cleanItem now x :: transformGo now (x.coin_id :: seen) xs := by
        simp [transformGo, hx]
      rw [hgo, hf, firstOccurrences_cons, List.map_cons]
      rw [ih (x.coin_id :: seen), List.filter_filter]
      have hpred : ∀ y ∈ xs,
          (y.coin_id != x.coin_id && decide (y.coin_id ∉ seen))
            = decide (y.coin_id ∉ x.coin_id :: seen) := by
        intro y _
        by_cases h1 : y.coin_id = x.coin_id <;> by_cases h2 : y.coin_id ∈ seen <;>
          simp [h1, h2, List.mem_cons]
      rw [List.filter_congr hpred]

/-- C1: for every input sequence to `transform_crypto_data`, duplicates
included, the output is exactly the cleaned first occurrences of the input in
input order, every `coin_id` appears in the output exactly once
(the `coin_id` column is duplicate-free), and the set of ids is exactly that
of the input. -/
theorem transform_dedup_first_occurrences (now : Nat) (data : List CoinRecord) :
    transform_crypto_data now data = (firstOccurrences data).map (cleanItem now)
    ∧ ((transform_crypto_data now data).map (fun r => r.coin_id)).Nodup
    ∧ ∀ c, c ∈ (transform_crypto_data now data).map (fun r => r.coin_id)
        ↔ c ∈ data.map (fun r => r.coin_id) := by
  have h0 : transform_crypto_data now data
      = (firstOccurrences data).map (cleanItem now) := by
    rw [transform_crypto_data, transformGo_eq]
    congr 2
    simp
  refine ⟨h0, ?_, ?_⟩
  · rw [h0, List.map_map]
    exact keys_firstOccurrences_nodup data
  · intro c
    rw [h0, List.map_map]
    exact mem_keys_firstOccurrences data c


lemma cleanCoins_eq (data : List RawCoin) :
    cleanCoins data = (data.filter keepCoin).map projectCoin := by
  induction data with
  | nil => rfl
  | cons c rest ih =>
    by_cases h : keepCoin c <;> simp [cleanCoins, List.filter_cons, h, ih]

lemma extract_ok_elim (resp : HttpResponse) (out : List CoinRecord)
    (h : extract_crypto_data resp = Except.ok out) :
    out = cleanCoins resp.json ∧ resp.status_code = 200 := by
  unfold extract_crypto_data at h
  split at h
  · exact absurd h (by simp)
  · rename_i hs
    cases h
    exact ⟨rfl, Decidable.not_not.mp hs⟩

/-- C2: the extractor keeps exactly the response entries that contain all of
the required keys `id`, `current_price`, `market_cap`, silently drops every
entry missing any of them (a raw entry is dropped by `keepCoin` iff one of the
three keys is absent), and the output is never longer than the input. -/
theorem extract_keeps_iff_required_fields (resp : HttpResponse)
    (out : List CoinRecord) (h : extract_crypto_data resp = Except.ok out) :
    out.length ≤ resp.json.length
    ∧ out = (resp.json.filter keepCoin).map projectCoin
    ∧ ∀ c ∈ resp.json,
        (keepCoin c = false
          ↔ (c.id = none ∨ c.current_price = none ∨ c.market_cap = none)) := by
  obtain ⟨rfl, -⟩ := extract_ok_elim resp out h
  refine ⟨?_, cleanCoins_eq _, ?_⟩
  · rw [cleanCoins_eq, List.length_map]
    exact List.length_filter_le _ _
  · intro c _
    cases hid : c.id <;> cases hcp : c.current_price <;> cases hmc : c.market_cap <;>
      simp [keepCoin, hasKey, hid, hcp, hmc]

/-- Closed instance of C2's theorem: a response with one complete entry and
one entry lacking the `current_price` key keeps exactly the complete entry. -/
theorem extract_keeps_iff_required_fields_witness :
    (cleanCoins [⟨some (some "btc"), some (some "BTC"), none, some (some 1), some (some 2)⟩,
        ⟨some (some "x"), none, none, none, some (some 2)⟩]).length
      ≤ ([⟨some (some "btc"), some (some "BTC"), none, some (some 1), some (some 2)⟩,
          ⟨some (some "x"), none, none, none, some (some 2)⟩] : List RawCoin).length :=
  (extract_keeps_iff_required_fields
    ⟨200, "",
      [⟨some (some "btc"), some (some "BTC"), none, some (some 1), some (some 2)⟩,
       ⟨some (some "x"), none, none, none, some (some 2)⟩]⟩
    _ rfl).1

/-- C10: the extractor output is exactly the kept entries of the response
array in their original relative order, each projected by `coin.get` onto the
five record fields, with `symbol` and `name` null when the key is absent. -/
theorem extract_preserves_order_projection (resp : HttpResponse)
    (out : List CoinRecord) (h : extract_crypto_data resp = Except.ok out) :
    out = (resp.json.filter keepCoin).map projectCoin
    ∧ ∀ c : RawCoin,
        (projectCoin c).coin_id = jsonGet c.id
        ∧ (projectCoin c).symbol = jsonGet c.symbol
        ∧ (projectCoin c).name = jsonGet c.name
        ∧ (projectCoin c).current_price = jsonGet c.current_price
        ∧ (projectCoin c).market_cap = jsonGet c.market_cap
        ∧ (c.symbol = none → (projectCoin c).symbol = none)
        ∧ (c.name = none → (projectCoin c).name = none) := by
  obtain ⟨rfl, -⟩ := extract_ok_elim resp out h
  refine ⟨cleanCoins_eq _, ?_⟩
  intro c
  refine ⟨rfl, rfl, rfl, rfl, rfl, ?_, ?_⟩
  · intro hs
    simp [projectCoin, jsonGet, hs]
  · intro hn
    simp [projectCoin, jsonGet, hn]

/-- Closed instance of C10's theorem: with two entries of which the second is
dropped, the output is the projected first entry. -/
theorem extract_preserves_order_projection_witness :
    cleanCoins [⟨some (some "btc"), none, some none, some (some 1), some (some 2)⟩,
        ⟨none, some (some "ETH"), none, some (some 3), some (some 4)⟩]
      = (([⟨some (some "btc"), none, some none, some (some 1), some (some 2)⟩,
           ⟨none, some (some "ETH"), none, some (some 3), some (some 4)⟩] :
            List RawCoin).filter keepCoin).map projectCoin :=
  (extract_preserves_order_projection
    ⟨200, "",
      [⟨some (some "btc"), none, some none, some (some 1), some (some 2)⟩,
       ⟨none, some (some "ETH"), none, some (some 3), some (some 4)⟩]⟩
    _ rfl).1


/-- C5 counterexample: an entry whose `current_price` key is present with a
null value passes the extractor filter, and its output record carries a null
`current_price` — refuting the claim that such entries are filtered out. -/
theorem extract_keeps_null_price_entry :
    extract_crypto_data
        ⟨200, "", [⟨some (some "x"), none, none, some none, some (some 5)⟩]⟩
      = Except.ok [⟨some "x", none, none, none, some 5⟩]
    ∧ (⟨some "x", none, none, none, some 5⟩ : CoinRecord).current_price = none :=
  ⟨rfl, rfl⟩

/-- C5 amended: the filter at line 68 tests key presence, not null-ness; an
entry whose `current_price` or `market_cap` key is present but null is kept,
and the null value propagates into the output record unchanged. Only entries
with a required key absent are dropped. -/
theorem extract_null_values_pass_filter (data : List RawCoin) (c : RawCoin)
    (hmem : c ∈ data) (hid : c.id.isSome = true)
    (hcp : c.current_price.isSome = true) (hmc : c.market_cap.isSome = true) :
    projectCoin c ∈ cleanCoins data
    ∧ (c.current_price = some none → (projectCoin c).current_price = none)
    ∧ (c.market_cap = some none → (projectCoin c).market_cap = none) := by
  refine ⟨?_, ?_, ?_⟩
  · rw [cleanCoins_eq]
    refine List.mem_map_of_mem _ (List.mem_filter.mpr ⟨hmem, ?_⟩)
    simp [keepCoin, hasKey, hid, hcp, hmc]
  · intro h
    simp [projectCoin, jsonGet, h]
  · intro h
    simp [projectCoin, jsonGet, h]

/-- Closed instance of C5's amended theorem: a null-priced entry reaches the
output of the cleaning loop. -/
theorem extract_null_values_pass_filter_witness :
    projectCoin ⟨some (some "x"), none, none, some none, some (some 5)⟩
      ∈ cleanCoins [⟨some (some "x"), none, none, some none, some (some 5)⟩] :=
  (extract_null_values_pass_filter
    [⟨some (some "x"), none, none, some none, some (some 5)⟩]
    ⟨some (some "x"), none, none, some none, some (some 5)⟩
    (List.mem_singleton_self _) rfl rfl rfl).1

/-- C6 counterexample: 204 is an HTTP success status, yet the extractor raises
on it, because line 58 tests `status_code != 200` literally rather than
status-class success. -/
theorem extract_raises_on_success_status :
    specSuccessStatus 204 = true
    ∧ extract_crypto_data ⟨204, "No Content", []⟩
        = Except.error ⟨204, "No Content"⟩ :=
  ⟨rfl, rfl⟩

/-- C6 amended: the extractor fails iff the status is not exactly 200; the
error carries the response's status code and body, and it aborts the whole
`run_pipeline` unchanged (fatal, no retry); a 200 response never raises. -/
theorem extract_fails_iff_not_200 (resp : HttpResponse) (now : Nat)
    (fail : DbStep → Bool) (t : Table) :
    (resp.status_code ≠ 200 →
      extract_crypto_data resp = Except.error ⟨resp.status_code, resp.text⟩
      ∧ (run_pipeline resp now fail t).1
          = Except.error (PipelineError.api ⟨resp.status_code, resp.text⟩))
    ∧ (resp.status_code = 200 →
      extract_crypto_data resp = Except.ok (cleanCoins resp.json)) := by
  constructor
  · intro hs
    have he : extract_crypto_data resp = Except.error ⟨resp.status_code, resp.text⟩ := by
      unfold extract_crypto_data
      rw [if_pos hs]
    exact ⟨he, by simp [run_pipeline, he]⟩
  · intro hs
    unfold extract_crypto_data
    rw [if_neg (by simp [hs])]

/-- Closed instance of C6's amended theorem at a 500 response. -/
theorem extract_fails_iff_not_200_witness :
    extract_crypto_data ⟨500, "oops", []⟩ = Except.error ⟨500, "oops"⟩
    ∧ (run_pipeline ⟨500, "oops", []⟩ 0 (fun _ => false) []).1
        = Except.error (PipelineError.api ⟨500, "oops"⟩) :=
  (extract_fails_iff_not_200 ⟨500, "oops", []⟩ 0 (fun _ => false) []).1 (by decide)

/-- C8 counterexample: a record whose `symbol` key holds the empty string is
present, and the claim then predicts output symbol `some ""` (the empty string
trimmed and lower-cased), but the code produces `none` because Python
truthiness treats `""` as falsy at line 106. -/
theorem transform_nulls_empty_symbol :
    (⟨some "c", some "", some "N", some 1, some 2⟩ : CoinRecord).symbol.isSome = true
    ∧ (transform_crypto_data 7 [⟨some "c", some "", some "N", some 1, some 2⟩]).map
        (fun r => r.symbol) = [none]
    ∧ some (pyLower (pyStrip "")) ≠ (none : Option String) := by
  refine ⟨rfl, rfl, by simp⟩

/-- C8 amended: every kept record is `cleanItem` of an input record, whose
`symbol` becomes the trimmed lower-cased input exactly when present and
non-empty and null when absent, null, or the empty string; likewise `name`
with trimming only. -/
theorem transform_normalizes_nonempty_text (now : Nat) (data : List CoinRecord)
    (o : CleanRecord) (h : o ∈ transform_crypto_data now data) :
    ∃ r ∈ data, o = cleanItem now r
      ∧ (∀ s, r.symbol = some s → s ≠ "" → o.symbol = some (pyLower (pyStrip s)))
      ∧ ((r.symbol = none ∨ r.symbol = some "") → o.symbol = none)
      ∧ (∀ s, r.name = some s → s ≠ "" → o.name = some (pyStrip s))
      ∧ ((r.name = none ∨ r.name = some "") → o.name = none) := by
  rw [transform_crypto_data, transformGo_eq] at h
  have hfilter : (data.filter fun y => decide (y.coin_id ∉ ([] : List (Option String))))
      = data := by simp
  rw [hfilter] at h
  rcases List.mem_map.mp h with ⟨r, hr, rfl⟩
  refine ⟨r, mem_of_mem_firstOccurrences data r hr, rfl, ?_, ?_, ?_, ?_⟩
  · intro s hs hne
    simp [cleanItem, hs, hne]
  · rintro (hs | hs) <;> simp [cleanItem, hs]
  · intro s hs hne
    simp [cleanItem, hs, hne]
  · rintro (hs | hs) <;> simp [cleanItem, hs]

/-- Closed instance of C8's amended theorem: `" BTC "` normalizes to `"btc"`
and `" Bitcoin "` to `"Bitcoin"`. -/
theorem transform_normalizes_nonempty_text_witness :
    ∃ r ∈ [(⟨some "btc", some " BTC ", some " Bitcoin ", some 1, some 2⟩ : CoinRecord)],
      (⟨some "btc", some "btc", some "Bitcoin", some 1, some 2, 7⟩ : CleanRecord)
          = cleanItem 7 r
      ∧ (∀ s, r.symbol = some s → s ≠ "" →
          (⟨some "btc", some "btc", some "Bitcoin", some 1, some 2, 7⟩ :
            CleanRecord).symbol = some (pyLower (pyStrip s)))
      ∧ ((r.symbol = none ∨ r.symbol = some "") →
          (⟨some "btc", some "btc", some "Bitcoin", some 1, some 2, 7⟩ :
            CleanRecord).symbol = none)
      ∧ (∀ s, r.name = some s → s ≠ "" →
          (⟨some "btc", some "btc", some "Bitcoin", some 1, some 2, 7⟩ :
            CleanRecord).name = some (pyStrip s))
      ∧ ((r.name = none ∨ r.name = some "") →
          (⟨some "btc", some "btc", some "Bitcoin", some 1, some 2, 7⟩ :
            CleanRecord).name = none) :=
  transform_normalizes_nonempty_text 7
    [⟨some "btc", some " BTC ", some " Bitcoin ", some 1, some 2⟩]
    ⟨some "btc", some "btc", some "Bitcoin", some 1, some 2, 7⟩ (by decide)


lemma upsertRow_of_mem (t : Table) (r : CleanRecord)
    (h : r.coin_id ∈ t.map (fun row => row.coin_id)) :
    upsertRow t r = t.map (fun row =>
      if row.coin_id = r.coin_id then
        { row with
          current_price := r.current_price
          market_cap := r.market_cap
          load_timestamp := r.load_timestamp }
      else row) := by
  unfold upsertRow
  rcases List.mem_map.mp h with ⟨row, hrow, hc⟩
  rw [if_pos (List.any_eq_true.mpr ⟨row, hrow, by simp [hc]⟩)]

lemma upsertRow_of_not_mem (t : Table) (r : CleanRecord)
    (h : r.coin_id ∉ t.map (fun row => row.coin_id)) :
    upsertRow t r = t ++ [r] := by
  unfold upsertRow
  have hcond : ¬t.any (fun row => row.coin_id == r.coin_id) = true := by
    intro hany
    rcases List.any_eq_true.mp hany with ⟨row, hrow, hc⟩
    exact h (List.mem_map.mpr ⟨row, hrow, beq_iff_eq.mp hc⟩)
  rw [if_neg hcond]

/-- C3: loading a one-record batch is the single upsert; when the record's
`coin_id` already occurs in the table, the upsert keeps every row's `coin_id`,
`symbol` and `name` columns exactly as they were, sets `current_price`,
`market_cap` and `load_timestamp` of the matching rows to the new values and
leaves non-matching rows entirely unchanged; when the `coin_id` is absent, the
full six-column row is appended. -/
theorem upsert_conflict_updates_only_price_cap_ts (t : Table) (r : CleanRecord) :
    load_to_postgres t [r] = upsertRow t r
    ∧ (r.coin_id ∈ t.map (fun row => row.coin_id) →
        (upsertRow t r).map (fun row => (row.coin_id, row.symbol, row.name))
            = t.map (fun row => (row.coin_id, row.symbol, row.name))
        ∧ (∀ row ∈ upsertRow t r, row.coin_id = r.coin_id →
            row.current_price = r.current_price ∧ row.market_cap = r.market_cap
              ∧ row.load_timestamp = r.load_timestamp)
        ∧ (∀ row ∈ t, row.coin_id ≠ r.coin_id → row ∈ upsertRow t r))
    ∧ (r.coin_id ∉ t.map (fun row => row.coin_id) → upsertRow t r = t ++ [r]) := by
  refine ⟨rfl, ?_, upsertRow_of_not_mem t r⟩
  intro h
  rw [upsertRow_of_mem t r h]
  refine ⟨?_, ?_, ?_⟩
  · rw [List.map_map]
    apply List.map_congr_left
    intro row _
    by_cases hc : row.coin_id = r.coin_id <;> simp [Function.comp, hc]
  · intro row hrow hc
    rcases List.mem_map.mp hrow with ⟨old, hold, rfl⟩
    by_cases h2 : old.coin_id = r.coin_id
    · simp [h2]
    · rw [if_neg h2] at hc
      exact absurd hc h2
  · intro row hrow hne
    exact List.mem_map.mpr ⟨row, hrow, by simp [hne]⟩

/-- Closed instance of C3's theorem: upserting a renamed bitcoin row leaves
the stored `symbol`/`name` untouched. -/
theorem upsert_conflict_updates_only_price_cap_ts_witness :
    (upsertRow [⟨some "btc", some "btc", some "Bitcoin", some 1, some 2, 0⟩]
        ⟨some "btc", some "xbt", some "XBitcoin", some 9, some 8, 5⟩).map
        (fun row => (row.coin_id, row.symbol, row.name))
      = [(⟨some "btc", some "btc", some "Bitcoin", some 1, some 2, 0⟩ :
          CleanRecord)].map (fun row => (row.coin_id, row.symbol, row.name)) :=
  ((upsert_conflict_updates_only_price_cap_ts
      [⟨some "btc", some "btc", some "Bitcoin", some 1, some 2, 0⟩]
      ⟨some "btc", some "xbt", some "XBitcoin", some 9, some 8, 5⟩).2.1
    (by decide)).1


lemma keys_upsertRow (t : Table) (r : CleanRecord) :
    (upsertRow t r).map (fun row => row.coin_id)
      = if r.coin_id ∈ t.map (fun row => row.coin_id) then
          t.map (fun row => row.coin_id)
        else t.map (fun row => row.coin_id) ++ [r.coin_id] := by
  by_cases h : r.coin_id ∈ t.map (fun row => row.coin_id)
  · rw [if_pos h, upsertRow_of_mem t r h, List.map_map]
    apply List.map_congr_left
    intro row _
    by_cases hc : row.coin_id = r.coin_id <;> simp [Function.comp, hc]
  · rw [if_neg h, upsertRow_of_not_mem t r h, List.map_append]
    rfl

lemma mem_keys_upsertRow (t : Table) (r : CleanRecord) (c : Option String) :
    c ∈ (upsertRow t r).map (fun row => row.coin_id)
      ↔ c ∈ t.map (fun row => row.coin_id) ∨ c = r.coin_id := by
  rw [keys_upsertRow]
  split
  · rename_i h
    constructor
    · exact Or.inl
    · rintro (hc | rfl)
      · exact hc
      · exact h
  · simp [List.mem_append]

lemma keys_nodup_upsertRow (t : Table) (r : CleanRecord)
    (h : (t.map (fun row => row.coin_id)).Nodup) :
    ((upsertRow t r).map (fun row => row.coin_id)).Nodup := by
  rw [keys_upsertRow]
  split
  · exact h
  · rename_i hnm
    simp [List.nodup_append, h, hnm]

lemma upsertRow_values (t : Table) (r : CleanRecord) :
    ∀ row ∈ upsertRow t r, row.coin_id = r.coin_id →
      row.current_price = r.current_price ∧ row.market_cap = r.market_cap
        ∧ row.load_timestamp = r.load_timestamp := by
  intro row hrow hc
  by_cases h : r.coin_id ∈ t.map (fun row => row.coin_id)
  · rw [upsertRow_of_mem t r h] at hrow
    rcases List.mem_map.mp hrow with ⟨old, _, rfl⟩
    by_cases h2 : old.coin_id = r.coin_id
    · simp [h2]
    · rw [if_neg h2] at hc
      exact absurd hc h2
  · rw [upsertRow_of_not_mem t r h] at hrow
    rcases List.mem_append.mp hrow with hmem | hmem
    · exact absurd (hc ▸ List.mem_map_of_mem (fun row => row.coin_id) hmem) h
    · have hr : row = r := by simpa using hmem
      subst hr
      exact ⟨rfl, rfl, rfl⟩

lemma upsertRow_preserves_other (t : Table) (r : CleanRecord) (c : Option String)
    (hne : r.coin_id ≠ c) :
    ∀ row ∈ upsertRow t r, row.coin_id = c → row ∈ t := by
  intro row hrow hc
  by_cases h : r.coin_id ∈ t.map (fun row => row.coin_id)
  · rw [upsertRow_of_mem t r h] at hrow
    rcases List.mem_map.mp hrow with ⟨old, hold, rfl⟩
    by_cases h2 : old.coin_id = r.coin_id
    · rw [if_pos h2] at hc ⊢
      exact absurd (h2 ▸ hc) hne
    · rw [if_neg h2] at hc ⊢
      exact hold
  · rw [upsertRow_of_not_mem t r h] at hrow
    rcases List.mem_append.mp hrow with hmem | hmem
    · exact hmem
    · have hr : row = r := by simpa using hmem
      subst hr
      exact absurd hc hne

lemma upsertRow_noop (t : Table) (r : CleanRecord)
    (hmem : r.coin_id ∈ t.map (fun row => row.coin_id))
    (hval : ∀ row ∈ t, row.coin_id = r.coin_id →
      row.current_price = r.current_price ∧ row.market_cap = r.market_cap
        ∧ row.load_timestamp = r.load_timestamp) :
    upsertRow t r = t := by
  rw [upsertRow_of_mem t r hmem]
  have hpt : ∀ row ∈ t,
      (if row.coin_id = r.coin_id then
        { row with
          current_price := r.current_price
          market_cap := r.market_cap
          load_timestamp := r.load_timestamp }
      else row) = row := by
    intro row hrow
    by_cases hc : row.coin_id = r.coin_id
    · rw [if_pos hc]
      rcases hval row hrow hc with ⟨h1, h2, h3⟩
      rw [← h1, ← h2, ← h3]
    · exact if_neg hc
  exact (List.map_congr_left hpt).trans (List.map_id' t)

/-- A record has been applied to the table: some row carries its `coin_id`,
and every row carrying it holds the record's price, market cap and
timestamp. -/
def rowApplied (t : Table) (r : CleanRecord) : Prop :=
  r.coin_id ∈ t.map (fun row => row.coin_id)
  ∧ ∀ row ∈ t, row.coin_id = r.coin_id →
      row.current_price = r.current_price ∧ row.market_cap = r.market_cap
        ∧ row.load_timestamp = r.load_timestamp

lemma rowApplied_upsert_self (t : Table) (r : CleanRecord) :
    rowApplied (upsertRow t r) r :=
  ⟨(mem_keys_upsertRow t r r.coin_id).mpr (Or.inr rfl), upsertRow_values t r⟩

lemma rowApplied_upsert_other (t : Table) (r' r : CleanRecord)
    (hne : r'.coin_id ≠ r.coin_id) (h : rowApplied t r) :
    rowApplied (upsertRow t r') r := by
  constructor
  · exact (mem_keys_upsertRow t r' r.coin_id).mpr (Or.inl h.1)
  · intro row hrow hc
    exact h.2 row (upsertRow_preserves_other t r' r.coin_id hne row hrow hc) hc

lemma rowApplied_load_other (b : List CleanRecord) :
    ∀ (t : Table) (r : CleanRecord), (∀ r' ∈ b, r'.coin_id ≠ r.coin_id) →
      rowApplied t r → rowApplied (load_to_postgres t b) r := by
  induction b with
  | nil =>
    intro t r _ h
    exact h
  | cons x rest ih =>
    intro t r hall h
    show rowApplied (load_to_postgres (upsertRow t x) rest) r
    exact ih (upsertRow t x) r (fun r' hr' => hall r' (List.mem_cons_of_mem x hr'))
      (rowApplied_upsert_other t x r (hall x (List.mem_cons_self x rest)) h)

lemma load_establishes (b : List CleanRecord)
    (hb : (b.map (fun r => r.coin_id)).Nodup) :
    ∀ (t : Table), ∀ r ∈ b, rowApplied (load_to_postgres t b) r := by
  induction b with
  | nil =>
    intro t r hr
    exact absurd hr (List.not_mem_nil r)
  | cons x rest ih =>
    intro t r hr
    rw [List.map_cons, List.nodup_cons] at hb
    rcases List.mem_cons.mp hr with rfl | hr
    · show rowApplied (load_to_postgres (upsertRow t r) rest) r
      refine rowApplied_load_other rest (upsertRow t r) r ?_ (rowApplied_upsert_self t r)
      intro r' hr' hceq
      exact hb.1 (hceq ▸ List.mem_map_of_mem (fun q => q.coin_id) hr')
    · exact ih hb.2 (upsertRow t x) r hr

lemma load_noop (b : List CleanRecord) :
    ∀ t : Table, (∀ r ∈ b, rowApplied t r) → load_to_postgres t b = t := by
  induction b with
  | nil =>
    intro t _
    rfl
  | cons x rest ih =>
    intro t h
    have hx := h x (List.mem_cons_self x rest)
    have hups : upsertRow t x = t := upsertRow_noop t x hx.1 hx.2
    show load_to_postgres (upsertRow t x) rest = t
    rw [hups]
    exact ih t (fun r hr => h r (List.mem_cons_of_mem x hr))

lemma keys_load_nodup (b : List CleanRecord) :
    ∀ t : Table, (t.map (fun row => row.coin_id)).Nodup →
      ((load_to_postgres t b).map (fun row => row.coin_id)).Nodup := by
  induction b with
  | nil =>
    intro t ht
    exact ht
  | cons x rest ih =>
    intro t ht
    exact ih (upsertRow t x) (keys_nodup_upsertRow t x ht)

lemma countP_eq_one_of_nodup_mem (l : List (Option String)) (c : Option String)
    (hnd : l.Nodup) (hc : c ∈ l) : l.countP (fun x => x == c) = 1 := by
  induction l with
  | nil => cases hc
  | cons a as ih =>
    rw [List.nodup_cons] at hnd
    rw [List.countP_cons]
    rcases List.mem_cons.mp hc with rfl | hc
    · have hz : as.countP (fun x => x == c) = 0 := by
        rw [List.countP_eq_zero]
        intro x hx
        simp only [beq_iff_eq]
        intro hxc
        exact hnd.1 (hxc ▸ hx)
      simp [hz]
    · have hne : a ≠ c := by
        intro hac
        exact hnd.1 (hac ▸ hc)
      simp [ih hnd.2 hc, hne]

/-- C9: with pairwise-distinct `coin_id`s in the batch and a duplicate-free
table key column, loading the same batch twice changes nothing relative to one
load — so the final table equals the state the second load produces — and the
final table carries exactly one row per `coin_id` of the batch. -/
theorem load_upsert_idempotent (t : Table) (b : List CleanRecord)
    (hb : (b.map (fun r => r.coin_id)).Nodup)
    (ht : (t.map (fun row => row.coin_id)).Nodup) :
    load_to_postgres (load_to_postgres t b) b = load_to_postgres t b
    ∧ ∀ c ∈ b.map (fun r => r.coin_id),
        ((load_to_postgres (load_to_postgres t b) b).map
          (fun row => row.coin_id)).countP (fun x => x == c) = 1 := by
  have happ : ∀ r ∈ b, rowApplied (load_to_postgres t b) r := load_establishes b hb t
  have hid : load_to_postgres (load_to_postgres t b) b = load_to_postgres t b :=
    load_noop b (load_to_postgres t b) happ
  refine ⟨hid, ?_⟩
  intro c hc
  rw [hid]
  rcases List.mem_map.mp hc with ⟨r, hr, rfl⟩
  exact countP_eq_one_of_nodup_mem _ _ (keys_load_nodup b t ht) (happ r hr).1

/-- Closed instance of C9's theorem on a two-record batch over a one-row
table. -/
theorem load_upsert_idempotent_witness :
    load_to_postgres
        (load_to_postgres [⟨some "btc", some "btc", some "Bitcoin", some 1, some 2, 0⟩]
          [⟨some "btc", some "btc", some "Bitcoin", some 3, some 4, 9⟩,
           ⟨some "eth", some "eth", some "Ethereum", some 5, some 6, 9⟩])
        [⟨some "btc", some "btc", some "Bitcoin", some 3, some 4, 9⟩,
         ⟨some "eth", some "eth", some "Ethereum", some 5, some 6, 9⟩]
      = load_to_postgres [⟨some "btc", some "btc", some "Bitcoin", some 1, some 2, 0⟩]
          [⟨some "btc", some "btc", some "Bitcoin", some 3, some 4, 9⟩,
           ⟨some "eth", some "eth", some "Ethereum", some 5, some 6, 9⟩] :=
  (load_upsert_idempotent [⟨some "btc", some "btc", some "Bitcoin", some 1, some 2, 0⟩]
      [⟨some "btc", some "btc", some "Bitcoin", some 3, some 4, 9⟩,
       ⟨some "eth", some "eth", some "Ethereum", some 5, some 6, 9⟩]
      (by decide) (by decide)).1


/-- C4 counterexample: when `execute_values` raises, `load_to_postgres` exits
with the error while the connection is still open — `conn.close()` (line 170)
is unreachable on that path, so resources are not released on every exit
path. -/
theorem loader_conn_left_open_on_db_error :
    (load_to_postgres_run (fun s => s == DbStep.insertValues) [] []).error
        = some DbStep.insertValues
    ∧ (load_to_postgres_run (fun s => s == DbStep.insertValues) [] []).connOpenAtExit
        = true :=
  ⟨rfl, rfl⟩

/-- C4 amended: the connection is opened before the work and closed on the
success path (after `conn.commit()`); on a database error the exception
propagates with the connection still open — it is left open exactly when some
call after a successful `connect` raised — and the table is unchanged since
nothing was committed. -/
theorem loader_conn_closed_only_on_success (fail : DbStep → Bool) (t : Table)
    (b : List CleanRecord) :
    ((load_to_postgres_run fail t b).error = none →
      (load_to_postgres_run fail t b).connOpenAtExit = false
      ∧ (load_to_postgres_run fail t b).table = load_to_postgres t b)
    ∧ ((load_to_postgres_run fail t b).connOpenAtExit = true ↔
        ∃ s, s ≠ DbStep.connect ∧ (load_to_postgres_run fail t b).error = some s)
    ∧ ((load_to_postgres_run fail t b).error ≠ none →
        (load_to_postgres_run fail t b).table = t) := by
  unfold load_to_postgres_run
  split_ifs <;> simp

/-- Closed instance of C4's amended theorem: with no failing call the
connection is closed at exit and the batch is applied. -/
theorem loader_conn_closed_only_on_success_witness :
    (load_to_postgres_run (fun _ => false) [] []).connOpenAtExit = false
    ∧ (load_to_postgres_run (fun _ => false) [] []).table = load_to_postgres [] [] :=
  (loader_conn_closed_only_on_success (fun _ => false) [] []).1 rfl

/-- C7 counterexample: all five configuration values are present (set in the
environment), `DB_PORT` being the empty string, yet startup fails with the
credentials error, because line 29 tests Python truthiness, not presence. -/
theorem startup_fails_on_present_empty_value :
    ((⟨some "u", some "p", some "h", some "", some "d"⟩ : EnvConfig).DB_USER.isSome
        = true
      ∧ (⟨some "u", some "p", some "h", some "", some "d"⟩ : EnvConfig).DB_PASSWORD.isSome
        = true
      ∧ (⟨some "u", some "p", some "h", some "", some "d"⟩ : EnvConfig).DB_HOST.isSome
        = true
      ∧ (⟨some "u", some "p", some "h", some "", some "d"⟩ : EnvConfig).DB_PORT.isSome
        = true
      ∧ (⟨some "u", some "p", some "h", some "", some "d"⟩ : EnvConfig).DB_NAME.isSome
        = true)
    ∧ (runModule ⟨some "u", some "p", some "h", some "", some "d"⟩ ⟨200, "", []⟩ 0
        (fun _ => false) []).1
      = Except.error (PipelineError.config "Database credentials are missing in .env") :=
  ⟨⟨rfl, rfl, rfl, rfl, rfl⟩, rfl⟩

/-- C7 amended: startup fails with the configuration error exactly when some
credential is falsy (absent or empty); on failure no external call is
attempted (the effect trace is empty); an absent credential always fails; and
when the check passes, no configuration error can surface later in the run. -/
theorem startup_fails_iff_falsy_credential (e : EnvConfig) (resp : HttpResponse)
    (now : Nat) (fail : DbStep → Bool) (t : Table) :
    (credsOk e = false →
      runModule e resp now fail t
        = (Except.error (PipelineError.config "Database credentials are missing in .env"),
           []))
    ∧ ((e.DB_USER = none ∨ e.DB_PASSWORD = none ∨ e.DB_HOST = none
        ∨ e.DB_PORT = none ∨ e.DB_NAME = none) → credsOk e = false)
    ∧ (credsOk e = true →
        ∀ msg, (runModule e resp now fail t).1 ≠ Except.error (PipelineError.config msg)) := by
  refine ⟨?_, ?_, ?_⟩
  · intro h
    simp [runModule, h]
  · rintro (h | h | h | h | h) <;> simp [credsOk, pyTruthy, h]
  · intro h msg
    simp only [runModule, if_pos h]
    unfold run_pipeline
    rcases hx : extract_crypto_data resp with a | raw
    · simp [hx]
    · simp only [hx]
      rcases ho : (load_to_postgres_run fail t (transform_crypto_data now raw)).error
          with _ | s
      · simp [ho]
      · simp [ho]

/-- Closed instance of C7's amended theorem: an absent `DB_USER` aborts the
module before any effect. -/
theorem startup_fails_iff_falsy_credential_witness :
    runModule ⟨none, some "p", some "h", some "1", some "d"⟩ ⟨200, "", []⟩ 0
        (fun _ => false) []
      = (Except.error (PipelineError.config "Database credentials are missing in .env"),
         []) :=
  (startup_fails_iff_falsy_credential ⟨none, some "p", some "h", some "1", some "d"⟩
    ⟨200, "", []⟩ 0 (fun _ => false) []).1 rfl

end AwsApiPipeline
